import Mathlib

/-!
# JobiAI workflow orchestrator and Jobs UI: a shallow embedding

This file embeds the job workflow data model and the pieces of the JobiAI
frontend (`frontend/src/pages/Jobs.tsx`, `frontend/src/services/api.ts`)
that the verified properties talk about, together with a model of the
backend Workflow Orchestrator (whose Python sources are not part of the
frontend tree) built from the specification's §4–§7.

Conventions: TypeScript string enums become Lean inductives with a
`key` map back to the literal strings used by the frontend; the
JavaScript objects used as keyed records become association lists
(`List (String × _)`) in declaration order.
-/

/-- The eight job `status` values (spec §4.2); the backend stores them as
strings, the frontend types `Job.status : string`. Modelled from the spec:
the backend enum definition is not in the frontend tree. -/
inductive Status
  | pending
  | processing
  | needs_input
  | completed
  | failed
  | aborted
  | done
  | rejected
deriving DecidableEq, Repr

/-- The string key under which each status appears in the store and UI. -/
def Status.key : Status → String
  | .pending => "pending"
  | .processing => "processing"
  | .needs_input => "needs_input"
  | .completed => "completed"
  | .failed => "failed"
  | .aborted => "aborted"
  | .done => "done"
  | .rejected => "rejected"

/-- The nine `workflow_step` values (spec §4.2). Modelled from the spec:
the backend enum definition is not in the frontend tree. -/
inductive WStep
  | company_extraction
  | search_connections
  | needs_hebrew_names
  | message_connections
  | waiting_for_reply
  | search_linkedin
  | send_requests
  | waiting_for_accept
  | done
deriving DecidableEq, Repr

/-- The string key under which each workflow step appears. -/
def WStep.key : WStep → String
  | .company_extraction => "company_extraction"
  | .search_connections => "search_connections"
  | .needs_hebrew_names => "needs_hebrew_names"
  | .message_connections => "message_connections"
  | .waiting_for_reply => "waiting_for_reply"
  | .search_linkedin => "search_linkedin"
  | .send_requests => "send_requests"
  | .waiting_for_accept => "waiting_for_accept"
  | .done => "done"

/-! ## StatusBadge and WorkflowBadge (Jobs.tsx)

`StatusBadge` holds a literal record `config` mapping each status string to
an icon, a colour class and a label; `WorkflowBadge` holds `stepLabels`
mapping each workflow step string to a label, colour and icon name. We embed
both as association lists in the source's declaration order, dropping the
icon component of `config` (a React component) but keeping its colour and
label strings. -/

/-- `config` of `StatusBadge` in Jobs.tsx: status key ↦ (color, label). -/
def statusBadgeConfig : List (String × String × String) :=
  [ ("pending", "bg-gray-100 text-gray-700", "Pending"),
    ("processing", "bg-yellow-100 text-yellow-700", "Processing"),
    ("needs_input", "bg-orange-100 text-orange-700", "Needs Input"),
    ("completed", "bg-green-100 text-green-700", "Completed"),
    ("failed", "bg-red-100 text-red-700", "Failed"),
    ("aborted", "bg-gray-100 text-gray-600", "Aborted"),
    ("done", "bg-green-100 text-green-700", "Done"),
    ("rejected", "bg-red-100 text-red-700", "Rejected") ]

/-- `stepLabels` of `WorkflowBadge` in Jobs.tsx: step key ↦ (label, color, icon). -/
def stepLabels : List (String × String × String × String) :=
  [ ("company_extraction", "Ready", "bg-blue-100 text-blue-700", "play"),
    ("search_connections", "Ready", "bg-blue-100 text-blue-700", "play"),
    ("needs_hebrew_names", "Needs Names", "bg-purple-100 text-purple-700", "language"),
    ("message_connections", "Ready", "bg-blue-100 text-blue-700", "play"),
    ("waiting_for_reply", "Waiting for Reply", "bg-amber-100 text-amber-700", "clock"),
    ("search_linkedin", "Ready", "bg-blue-100 text-blue-700", "play"),
    ("send_requests", "Ready", "bg-blue-100 text-blue-700", "play"),
    ("waiting_for_accept", "Waiting for Accept", "bg-amber-100 text-amber-700", "clock"),
    ("done", "Done", "bg-green-100 text-green-700", "check") ]

/-- Lookup in `config` with the source's fallback `config[status] || config.pending`. -/
def statusBadgeEntry (status : String) : String × String :=
  match statusBadgeConfig.lookup status with
  | some e => e
  | none => ("bg-gray-100 text-gray-700", "Pending")

/-- Lookup in `stepLabels` with the source's fallback
`stepLabels[step] || \x7b label: step, color: gray, icon: play \x7d`. -/
def stepLabelEntry (step : String) : String × String × String :=
  match stepLabels.lookup step with
  | some e => e
  | none => (step, "bg-gray-100 text-gray-700", "play")

/-! ## The needs-input prompt in the jobs table (Jobs.tsx)

The company cell of each row renders, in order: the Hebrew-names button when
`job.workflow_step === 'needs_hebrew_names' && job.status === 'needs_input'`;
else the enter-company button when `job.status === 'needs_input'`; else the
plain company-name cell. -/

/-- What the company cell of a job row renders. -/
inductive CompanyCell
  | hebrewNamesButton
  | enterCompanyButton
  | plainCompanyCell
deriving DecidableEq, Repr

/-- The branch structure of the company cell in the jobs table row. -/
def companyCellView (status wstep : String) : CompanyCell :=
  if wstep = "needs_hebrew_names" ∧ status = "needs_input" then
    .hebrewNamesButton
  else if status = "needs_input" then
    .enterCompanyButton
  else
    .plainCompanyCell

/-! ## HebrewNamesInputModal (Jobs.tsx)

The modal's state `translations` is a JS object initialised with one key per
name in `job.pending_hebrew_names`, all values `''`; each input for `name`
overwrites `translations[name]`. We model the object as its entries list:
one entry per pending name, in list order, carrying the current input value
`t name`. -/

/-- Entries of the `translations` object: one per pending name (an object
key occurs once), in order, with its current value. -/
def translationsEntries (pendingNames : List String) (t : String → String) :
    List (String × String) :=
  pendingNames.dedup.map (fun n => (n, t n))

/-- JavaScript `trim`: strip leading and trailing whitespace (executable
model of `String.prototype.trim`). -/
def jsTrim (s : String) : String :=
  ⟨((s.data.dropWhile Char.isWhitespace).reverse.dropWhile Char.isWhitespace).reverse⟩

/-- `handleSubmit`: keep the entries whose value is non-blank after `trim`,
and submit `(english_name, trimmed hebrew_name)` pairs. -/
def handleSubmitNames (entries : List (String × String)) : List (String × String) :=
  (entries.filter (fun p => ¬jsTrim p.2 = "")).map (fun p => (p.1, jsTrim p.2))

/-- `allFilled`: every pending name currently has a non-blank translation. -/
def allFilled (pendingNames : List String) (t : String → String) : Bool :=
  pendingNames.all (fun n => ¬jsTrim (t n) = "")

/-- The submit button's enabled condition: `disabled = isPending || !allFilled`. -/
def submitEnabled (isPending : Bool) (pendingNames : List String) (t : String → String) : Bool :=
  !isPending && allFilled pendingNames t

/-! ## Run All (Jobs.tsx `runAllMutation`)

`runAllMutation` copies the runnable jobs list, reverses it
(`const fifoJobs = [...runnableJobs].reverse()`), and awaits one
trigger-request per job in that order, each completing before the next is
issued. The jobs list arrives from the API newest-first, so the reversal
is the oldest-first order. -/

/-- The fields of a jobs-table row that Run All ordering depends on. -/
structure JobRow where
  id : Nat
  created_at : Nat
deriving DecidableEq, Repr

/-- `fifoJobs` of `runAllMutation`: the reversed runnable-jobs list. -/
def runAllFifoJobs (runnableJobs : List JobRow) : List JobRow :=
  runnableJobs.reverse

/-- The sequence of job ids for which Run All issues its requests, in issue
order (the loop awaits each request before issuing the next). -/
def runAllRequestOrder (runnableJobs : List JobRow) : List Nat :=
  (runAllFifoJobs runnableJobs).map JobRow.id

/-! ## Workflow Orchestrator model

Modelled from the spec: the backend Workflow Orchestrator's Python sources
are not in the frontend tree (only its API callers are); the definitions in
this section follow spec §3 (Execution Slot), §4.2 (transition rules),
§4.3 (execution discipline) and §7 (crash recovery) verbatim. The gateway
call is the sole suspension point, so a run is modelled as a start event
followed later by a gateway-result event; the environment chooses the
result. -/

/-- Trigger options carried by a run request (spec §4.1). -/
structure TriggerOpts where
  template_id : Option Nat
  force_search : Bool
  first_degree_only : Bool
deriving DecidableEq, Repr

/-- The per-job stored fields the Orchestrator transitions (spec §3, §4.2). -/
structure JobRec where
  status : Status
  wstep : WStep
  error_message : Option String
deriving DecidableEq, Repr

/-- One waiting-queue entry: job id, the latest options requested for it,
and a ghost arrival index recording when the entry was first enqueued. -/
structure QEntry where
  jid : Nat
  opts : TriggerOpts
  arrival : Nat
deriving DecidableEq, Repr

/-- Orchestrator state: the Execution Slot (running job, its options, the
pre-execution snapshot, the cooperative abort flag, the FIFO wait queue)
plus the Job Store and a ghost arrival counter. -/
structure OState where
  running : Option Nat
  runningOpts : Option TriggerOpts
  snapshot : Option JobRec
  abortFlag : Bool
  queue : List QEntry
  counter : Nat
  store : Nat → JobRec

/-- Start executing job `j`: snapshot its record, set `status := processing`,
occupy the slot (spec §4.3 algorithm steps 1–2). -/
def startJob (j : Nat) (o : TriggerOpts) (s : OState) : OState :=
  { s with
    running := some j
    runningOpts := some o
    snapshot := some (s.store j)
    abortFlag := false
    store := fun k => if k = j then { s.store j with status := .processing } else s.store k }

/-- Append a request to the FIFO wait queue, replacing any existing queued
entry for the same job id with the newer options (spec §4.3: last request
for a given job wins; replacement is in place, preserving queue position). -/
def enqueueReq (j : Nat) (o : TriggerOpts) (s : OState) : OState :=
  if s.queue.any (fun e => e.jid = j) then
    { s with queue := s.queue.map (fun e => if e.jid = j then { e with opts := o } else e) }
  else
    { s with queue := s.queue ++ [⟨j, o, s.counter⟩], counter := s.counter + 1 }

/-- `RunJob(jobID, options)`: run immediately when the slot is idle, else
enqueue (spec §4.3). -/
def runJobReq (j : Nat) (o : TriggerOpts) (s : OState) : OState :=
  match s.running with
  | none => startJob j o s
  | some _ => enqueueReq j o s

/-- Outcome of the single gateway call of a run, as observed at the
orchestrator boundary (spec §4.3 steps 5–8); on success the environment
(gateway plus Step Resolver) supplies the advanced workflow step. -/
inductive GResult
  | success (newStep : WStep)
  | needsInput (pauseStep : WStep)
  | failure (msg : String)
  | aborted
deriving DecidableEq, Repr

/-- Apply a gateway outcome to the running job's record (spec §4.2):
success completes and advances (clearing the error); needs-input pauses at
the pausing step with no error recorded; failure keeps the step and records
the message; abort restores the pre-execution snapshot with
`error_message = "Aborted by user"`. -/
def applyOutcome (cur snap : JobRec) (res : GResult) : JobRec :=
  match res with
  | .success newStep => { status := .completed, wstep := newStep, error_message := none }
  | .needsInput pauseStep => { cur with status := .needs_input, wstep := pauseStep }
  | .failure msg => { cur with status := .failed, error_message := some msg }
  | .aborted => { snap with error_message := some "Aborted by user" }

/-- Release the Execution Slot and immediately pop and start the next
FIFO-queued job, if any (spec §4.3 step 9). -/
def releaseAndNext (s : OState) : OState :=
  match s.queue with
  | [] => { s with running := none, runningOpts := none, snapshot := none, abortFlag := false }
  | e :: rest =>
      startJob e.jid e.opts
        { s with queue := rest, running := none, runningOpts := none,
                 snapshot := none, abortFlag := false }

/-- The gateway call of the in-flight run returns with result `res`: persist
the §4.2 transition for the running job, then release the slot and start the
next queued job. A no-op when the slot is idle. -/
def finishRun (res : GResult) (s : OState) : OState :=
  match s.running, s.snapshot with
  | some j, some snap =>
      releaseAndNext
        { s with store := fun k => if k = j then applyOutcome (s.store j) snap res else s.store k }
  | _, _ => s

/-- `AbortCurrent()`: signal the in-flight execution to stop at its next
safe checkpoint; restoration happens when the gateway call returns the
abort signal (spec §4.3). -/
def abortCurrent (s : OState) : OState :=
  match s.running with
  | some _ => { s with abortFlag := true }
  | none => s

/-- `AbortJob(jobID)`: behaves as `AbortCurrent` when `jobID` is running;
otherwise removes `jobID` from the wait queue (spec §4.3). -/
def abortJob (j : Nat) (s : OState) : OState :=
  if s.running = some j then abortCurrent s
  else { s with queue := s.queue.filter (fun e => ¬e.jid = j) }

/-- `CurrentStatus()` response shape (spec §4.3): the running job id and the
queued job ids, queue order. -/
structure CurrentStatusResp where
  runningJobID : Option Nat
  queuedJobIDs : List Nat
deriving DecidableEq, Repr

/-- `CurrentStatus()`: project the Execution Slot for UI polling. -/
def currentStatus (s : OState) : CurrentStatusResp :=
  ⟨s.running, s.queue.map QEntry.jid⟩

/-- Startup reconciliation (spec §7): any job left `processing` is reset to
`failed` with message `"interrupted"`; every other record is untouched. -/
def startupRecover (st : Nat → JobRec) : Nat → JobRec := fun j =>
  if (st j).status = .processing then
    { st j with status := .failed, error_message := some "interrupted" }
  else st j

/-- Process startup: the Execution Slot is fresh (idle, empty queue) and the
Job Store has been reconciled, before any `RunJob` is accepted (spec §3, §7). -/
def initState (st : Nat → JobRec) : OState :=
  { running := none, runningOpts := none, snapshot := none, abortFlag := false,
    queue := [], counter := 0, store := startupRecover st }

/-- The events the Orchestrator serialises: an incoming `RunJob` request, a
gateway-call return, `AbortCurrent`, `AbortJob` (spec §5: all calls are
funnelled through one serialisation point). -/
inductive OEvent
  | runReq (j : Nat) (o : TriggerOpts)
  | gatewayDone (res : GResult)
  | abortCur
  | abortOne (j : Nat)
deriving DecidableEq, Repr

/-- One serialised orchestrator step. -/
def stepFn : OEvent → OState → OState
  | .runReq j o => runJobReq j o
  | .gatewayDone res => finishRun res
  | .abortCur => abortCurrent
  | .abortOne j => abortJob j

/-- Run a sequence of serialised events from a state. -/
def runTrace (evs : List OEvent) (s : OState) : OState :=
  evs.foldl (fun s e => stepFn e s) s

/-- Reachable states: everything a freshly started process can evolve into
under any serialised event sequence, from any pre-startup Job Store. -/
def Reachable (s : OState) : Prop :=
  ∃ st evs, s = runTrace evs (initState st)

/-! ## Execution-slot invariants -/

/-- The Execution Slot invariant (spec §3): the running job is the only one
in `processing`; a run in flight holds a snapshot taken before `processing`
was set; queued job ids are distinct; the queue is ordered by arrival; and
every arrival index is below the ghost counter. -/
def SlotInv (s : OState) : Prop :=
  (∀ j, (s.store j).status = Status.processing → s.running = some j) ∧
  (∀ j, s.running = some j →
    ∃ snap, s.snapshot = some snap ∧ ¬snap.status = Status.processing) ∧
  (s.queue.map QEntry.jid).Nodup ∧
  s.queue.Pairwise (fun a b => a.arrival < b.arrival) ∧
  (∀ e ∈ s.queue, e.arrival < s.counter)

theorem slotInv_startJob {s : OState} (j : Nat) (o : TriggerOpts)
    (hnp : ∀ k, ¬(s.store k).status = Status.processing)
    (h3 : (s.queue.map QEntry.jid).Nodup)
    (h4 : s.queue.Pairwise (fun a b => a.arrival < b.arrival))
    (h5 : ∀ e ∈ s.queue, e.arrival < s.counter) :
    SlotInv (startJob j o s) := by
  refine ⟨?_, ?_, h3, h4, h5⟩
  · intro k hk
    by_cases hkj : k = j
    · simp [startJob, hkj]
    · simp only [startJob, if_neg hkj] at hk
      exact absurd hk (hnp k)
  · intro j' hj'
    simp only [startJob, Option.some.injEq] at hj'
    exact ⟨s.store j, rfl, hnp j⟩

theorem slotInv_enqueueReq {s : OState} (j : Nat) (o : TriggerOpts) (h : SlotInv s) :
    SlotInv (enqueueReq j o s) := by
  obtain ⟨h1, h2, h3, h4, h5⟩ := h
  unfold enqueueReq
  split
  · refine ⟨h1, h2, ?_, ?_, ?_⟩
    · have hmap : (s.queue.map (fun e => if e.jid = j then { e with opts := o } else e)).map
          QEntry.jid = s.queue.map QEntry.jid := by
        rw [List.map_map]
        refine List.map_congr_left ?_
        intro e _
        by_cases hej : e.jid = j <;> simp [hej]
      simpa [hmap] using h3
    · refine h4.map _ ?_
      intro a b hab
      by_cases ha : a.jid = j <;> by_cases hb : b.jid = j <;> simpa [ha, hb] using hab
    · intro e he
      obtain ⟨e', he', rfl⟩ := List.mem_map.mp he
      by_cases he'j : e'.jid = j <;> simpa [he'j] using h5 e' he'
  · rename_i hnotin
    have hj : ¬j ∈ s.queue.map QEntry.jid := by
      intro hmem
      obtain ⟨e, he, hej⟩ := List.mem_map.mp hmem
      exact hnotin (List.any_eq_true.mpr ⟨e, he, decide_eq_true hej⟩)
    refine ⟨h1, h2, ?_, ?_, ?_⟩
    · rw [List.map_append]
      exact List.nodup_append.mpr ⟨h3, List.nodup_singleton j,
        fun a ha hb => by simp at hb; subst hb; exact hj ha⟩
    · refine List.pairwise_append.mpr ⟨h4, List.pairwise_singleton _ _, ?_⟩
      intro a ha b hb
      simp only [List.mem_singleton] at hb
      subst hb
      exact h5 a ha
    · intro e he
      rcases List.mem_append.mp he with he | he
      · exact Nat.lt_trans (h5 e he) (Nat.lt_succ_self _)
      · simp only [List.mem_singleton] at he
        subst he
        exact Nat.lt_succ_self _

theorem slotInv_runJobReq {s : OState} (j : Nat) (o : TriggerOpts) (h : SlotInv s) :
    SlotInv (runJobReq j o s) := by
  unfold runJobReq
  cases hr : s.running with
  | none =>
      exact slotInv_startJob j o
        (fun k hk => by have := h.1 k hk; rw [hr] at this; exact Option.noConfusion this)
        h.2.2.1 h.2.2.2.1 h.2.2.2.2
  | some r => exact slotInv_enqueueReq j o h

theorem applyOutcome_not_processing (cur snap : JobRec) (res : GResult)
    (hsnap : ¬snap.status = Status.processing) :
    ¬(applyOutcome cur snap res).status = Status.processing := by
  cases res with
  | success ns => simp [applyOutcome]
  | needsInput ps => simp [applyOutcome]
  | failure m => simp [applyOutcome]
  | aborted => simpa [applyOutcome] using hsnap

theorem slotInv_finishRun {s : OState} (res : GResult) (h : SlotInv s) :
    SlotInv (finishRun res s) := by
  obtain ⟨h1, h2, h3, h4, h5⟩ := h
  unfold finishRun
  cases hr : s.running with
  | none => exact ⟨h1, h2, h3, h4, h5⟩
  | some j =>
      obtain ⟨snap, hsnap, hsnapnp⟩ := h2 j hr
      rw [hsnap]
      have hnp : ∀ k, ¬((fun k => if k = j then applyOutcome (s.store j) snap res
          else s.store k) k).status = Status.processing := by
        intro k
        by_cases hkj : k = j
        · simpa [hkj] using applyOutcome_not_processing (s.store j) snap res hsnapnp
        · simp only [if_neg hkj]
          intro hk
          have := h1 k hk
          rw [hr] at this
          exact hkj (Option.some.injEq _ _ ▸ this.symm ▸ rfl)
      unfold releaseAndNext
      cases hq : s.queue with
      | nil =>
          refine ⟨?_, ?_, ?_, ?_, ?_⟩ <;> simp_all
      | cons e rest =>
          simp only
          refine slotInv_startJob e.jid e.opts (s := _) ?_ ?_ ?_ ?_
          · intro k
            exact hnp k
          · have := h3
            rw [hq] at this
            simpa using this.of_cons
          · have := h4
            rw [hq] at this
            exact this.of_cons
          · intro e' he'
            have := h5 e'
            rw [hq] at this
            exact this (List.mem_cons_of_mem e he')

theorem slotInv_abortCurrent {s : OState} (h : SlotInv s) : SlotInv (abortCurrent s) := by
  obtain ⟨h1, h2, h3, h4, h5⟩ := h
  unfold abortCurrent
  cases hr : s.running with
  | none => exact ⟨h1, h2, h3, h4, h5⟩
  | some r =>
      refine ⟨?_, ?_, h3, h4, h5⟩
      · intro k hk
        show some r = some k
        rw [← hr]
        exact h1 k hk
      · intro k hk
        have hk' : some r = some k := hk
        exact h2 k (hr.trans hk')

theorem slotInv_abortJob {s : OState} (j : Nat) (h : SlotInv s) : SlotInv (abortJob j s) := by
  unfold abortJob
  split
  · exact slotInv_abortCurrent h
  · obtain ⟨h1, h2, h3, h4, h5⟩ := h
    have hsub : List.Sublist (s.queue.filter (fun e => ¬e.jid = j)) s.queue :=
      List.filter_sublist s.queue
    exact ⟨h1, h2, h3.sublist (hsub.map QEntry.jid), h4.sublist hsub,
      fun e he => h5 e (List.mem_of_mem_filter he)⟩

theorem slotInv_stepFn (ev : OEvent) {s : OState} (h : SlotInv s) : SlotInv (stepFn ev s) := by
  cases ev with
  | runReq j o => exact slotInv_runJobReq j o h
  | gatewayDone res => exact slotInv_finishRun res h
  | abortCur => exact slotInv_abortCurrent h
  | abortOne j => exact slotInv_abortJob j h

theorem slotInv_runTrace (evs : List OEvent) {s : OState} (h : SlotInv s) :
    SlotInv (runTrace evs s) := by
  induction evs generalizing s with
  | nil => exact h
  | cons ev rest ih => exact ih (slotInv_stepFn ev h)

theorem startupRecover_not_processing (st : Nat → JobRec) (j : Nat) :
    ¬(startupRecover st j).status = Status.processing := by
  unfold startupRecover
  split
  · simp
  · assumption

theorem slotInv_initState (st : Nat → JobRec) : SlotInv (initState st) := by
  refine ⟨?_, ?_, ?_, ?_, ?_⟩
  · intro j hj
    exact absurd hj (startupRecover_not_processing st j)
  · intro j hj
    exact Option.noConfusion hj
  · exact List.nodup_nil
  · exact List.Pairwise.nil
  · intro e he
    exact absurd he (List.not_mem_nil e)

theorem reachable_inv {s : OState} (h : Reachable s) : SlotInv s := by
  obtain ⟨st, evs, rfl⟩ := h
  exact slotInv_runTrace evs (slotInv_initState st)

/-! ## Queue computation lemmas -/

theorem enqueueReq_running (j : Nat) (o : TriggerOpts) (s : OState) :
    (enqueueReq j o s).running = s.running := by
  unfold enqueueReq
  split <;> rfl

theorem runJobReq_busy {s : OState} (j : Nat) (o : TriggerOpts) (r : Nat)
    (hr : s.running = some r) : runJobReq j o s = enqueueReq j o s := by
  unfold runJobReq
  rw [hr]

theorem enqueueReq_queue_replace {s : OState} (j : Nat) (o : TriggerOpts)
    (h : s.queue.any (fun e => e.jid = j) = true) :
    (enqueueReq j o s).queue
      = s.queue.map (fun e => if e.jid = j then { e with opts := o } else e) := by
  unfold enqueueReq
  rw [if_pos h]

theorem enqueueReq_queue_append {s : OState} (j : Nat) (o : TriggerOpts)
    (h : ¬s.queue.any (fun e => e.jid = j) = true) :
    (enqueueReq j o s).queue = s.queue ++ [⟨j, o, s.counter⟩] := by
  unfold enqueueReq
  rw [if_neg h]

theorem replace_any_jid (q : List QEntry) (j : Nat) (o : TriggerOpts) :
    (q.map (fun e => if e.jid = j then { e with opts := o } else e)).any
      (fun e => e.jid = j) = q.any (fun e => e.jid = j) := by
  induction q with
  | nil => rfl
  | cons e rest ih => by_cases hej : e.jid = j <;> simp [hej, ih]

theorem filter_replace (q : List QEntry) (j : Nat) (o : TriggerOpts) :
    (q.map (fun e => if e.jid = j then { e with opts := o } else e)).filter
      (fun e => e.jid = j)
      = (q.filter (fun e => e.jid = j)).map (fun e => { e with opts := o }) := by
  induction q with
  | nil => rfl
  | cons e rest ih => by_cases hej : e.jid = j <;> simp [List.filter_cons, hej, ih]

theorem filter_jid_nil (q : List QEntry) (j : Nat)
    (h : ¬q.any (fun e => e.jid = j) = true) :
    q.filter (fun e => e.jid = j) = [] := by
  refine List.filter_eq_nil_iff.mpr ?_
  intro a ha
  simp only [decide_eq_true_eq]
  intro haj
  exact h (List.any_eq_true.mpr ⟨a, ha, decide_eq_true haj⟩)

theorem filter_jid_singleton (q : List QEntry) (j : Nat)
    (hN : (q.map QEntry.jid).Nodup) (hj : q.any (fun e => e.jid = j) = true) :
    ∃ e0, e0 ∈ q ∧ e0.jid = j ∧ q.filter (fun e => e.jid = j) = [e0] := by
  induction q with
  | nil => simp at hj
  | cons e rest ih =>
      simp only [List.map_cons, List.nodup_cons] at hN
      by_cases hej : e.jid = j
      · refine ⟨e, List.mem_cons_self e rest, hej, ?_⟩
        have hrest : rest.filter (fun e => e.jid = j) = [] := by
          refine List.filter_eq_nil_iff.mpr ?_
          intro a ha
          simp only [decide_eq_true_eq]
          intro haj
          apply hN.1
          rw [hej, ← haj]
          exact List.mem_map_of_mem QEntry.jid ha
        simp [List.filter_cons, hej, hrest]
      · have hj' : rest.any (fun e => e.jid = j) = true := by
          rcases List.any_eq_true.mp hj with ⟨a, ha, hpa⟩
          rcases List.mem_cons.mp ha with rfl | ha'
          · exact absurd (of_decide_eq_true hpa) hej
          · exact List.any_eq_true.mpr ⟨a, ha', hpa⟩
        obtain ⟨e0, he0, he0j, hfil⟩ := ih hN.2 hj'
        exact ⟨e0, List.mem_cons_of_mem e he0, he0j,
          by simp [List.filter_cons, hej, hfil]⟩

theorem enqueue_twice_opts {s : OState} (j : Nat) (oA oB : TriggerOpts)
    (hN : (s.queue.map QEntry.jid).Nodup) :
    ((enqueueReq j oB (enqueueReq j oA s)).queue.filter (fun e => e.jid = j)).map
      QEntry.opts = [oB] := by
  by_cases hin : s.queue.any (fun e => e.jid = j) = true
  · have hq1 : (enqueueReq j oA s).queue
        = s.queue.map (fun e => if e.jid = j then { e with opts := oA } else e) :=
      enqueueReq_queue_replace j oA hin
    have hin1 : (enqueueReq j oA s).queue.any (fun e => e.jid = j) = true := by
      rw [hq1, replace_any_jid]
      exact hin
    obtain ⟨e0, he0, he0j, hfil⟩ := filter_jid_singleton s.queue j hN hin
    rw [enqueueReq_queue_replace j oB hin1, hq1, filter_replace, filter_replace, hfil]
    simp [he0j]
  · have hq1 : (enqueueReq j oA s).queue = s.queue ++ [⟨j, oA, s.counter⟩] :=
      enqueueReq_queue_append j oA hin
    have hin1 : (enqueueReq j oA s).queue.any (fun e => e.jid = j) = true := by
      rw [hq1]
      exact List.any_eq_true.mpr
        ⟨⟨j, oA, s.counter⟩, List.mem_append_right _ (List.mem_singleton_self _),
          decide_eq_true rfl⟩
    have hnilfil : s.queue.filter (fun e => e.jid = j) = [] := filter_jid_nil s.queue j hin
    rw [enqueueReq_queue_replace j oB hin1, hq1, List.map_append, List.filter_append,
      filter_replace, hnilfil]
    simp

theorem finishRun_starts_head {s : OState} (res : GResult) (r : Nat) (snap : JobRec)
    (e : QEntry) (rest : List QEntry) (hr : s.running = some r)
    (hs : s.snapshot = some snap) (hq : s.queue = e :: rest) :
    (finishRun res s).running = some e.jid ∧
    (finishRun res s).runningOpts = some e.opts := by
  simp [finishRun, hr, hs, releaseAndNext, hq, startJob]

/-! ## Composite runs -/

/-- A complete run of job `j` whose single gateway call observes the abort
signal: `RunJob` from an idle slot, then the gateway returns `aborted`. -/
def runThenAbort (j : Nat) (o : TriggerOpts) (s : OState) : OState :=
  finishRun GResult.aborted (runJobReq j o s)

/-! ## Claim theorems -/

/-- C1: Single-flight execution — in every reachable Orchestrator state, a
job in `status=processing` is the job occupying the Execution Slot, so at
most one job is processing at any instant, for any serialised sequence of
`RunJob` calls and gateway events. -/
theorem single_flight_execution (s : OState) (h : Reachable s) :
    (∀ j, (s.store j).status = Status.processing → s.running = some j) ∧
    (∀ j k, (s.store j).status = Status.processing →
      (s.store k).status = Status.processing → j = k) := by
  have hinv := reachable_inv h
  refine ⟨hinv.1, ?_⟩
  intro j k hj hk
  have h1 := hinv.1 j hj
  have h2 := hinv.1 k hk
  exact Option.some_inj.mp (h1.symm.trans h2)

/-- C2: `AbortJob(jobID)` behaves exactly as `AbortCurrent` when `jobID` is
the running job; when `jobID` is not running it only removes `jobID` from
the wait queue, leaving the Job Store, the running job and the snapshot
unchanged, so a queued job is dropped without ever being started. -/
theorem abortJob_semantics (s : OState) (j : Nat) :
    (s.running = some j → abortJob j s = abortCurrent s) ∧
    (¬s.running = some j →
      (abortJob j s).store = s.store ∧
      (abortJob j s).running = s.running ∧
      (abortJob j s).snapshot = s.snapshot ∧
      (abortJob j s).queue = s.queue.filter (fun e => ¬e.jid = j) ∧
      ∀ e ∈ (abortJob j s).queue, ¬e.jid = j) := by
  constructor
  · intro h
    unfold abortJob
    rw [if_pos h]
  · intro h
    unfold abortJob
    rw [if_neg h]
    refine ⟨rfl, rfl, rfl, rfl, ?_⟩
    intro e he
    simpa using (List.mem_filter.mp he).2

/-- C3: a job run from an idle slot and aborted mid-gateway-call ends with
its `status` and `workflow_step` restored exactly to the pre-execution
snapshot and `error_message = "Aborted by user"`; per-job abort never moves
a job into the terminal `aborted` status, and the slot is released. -/
theorem abort_restores_snapshot (s : OState) (j : Nat) (o : TriggerOpts)
    (hidle : s.running = none) (hq : s.queue = []) :
    (runThenAbort j o s).store j
      = { s.store j with error_message := some "Aborted by user" } ∧
    ((runThenAbort j o s).store j).status = (s.store j).status ∧
    ((runThenAbort j o s).store j).wstep = (s.store j).wstep ∧
    (¬(s.store j).status = Status.aborted →
      ¬((runThenAbort j o s).store j).status = Status.aborted) ∧
    (runThenAbort j o s).running = none := by
  have hmain : (runThenAbort j o s).store j
      = { s.store j with error_message := some "Aborted by user" }
      ∧ (runThenAbort j o s).running = none := by
    constructor <;>
      simp [runThenAbort, runJobReq, hidle, startJob, finishRun, releaseAndNext, hq,
        applyOutcome]
  refine ⟨hmain.1, ?_, ?_, ?_, hmain.2⟩
  · rw [hmain.1]
  · rw [hmain.1]
  · intro hpre
    rw [hmain.1]
    exact hpre

/-- C4: queue dedup-replace — queued job ids are distinct in every
reachable state; two `RunJob` requests for the same job while the slot is
busy leave exactly one queue entry for it, carrying the later options; and
a job started from the queue is started with its queued options. -/
theorem queue_dedup_replace :
    (∀ s, Reachable s → ((currentStatus s).queuedJobIDs).Nodup) ∧
    (∀ s j oA oB r, Reachable s → s.running = some r →
      ((runJobReq j oB (runJobReq j oA s)).queue.filter (fun e => e.jid = j)).map
        QEntry.opts = [oB]) ∧
    (∀ s res r snap e rest, s.running = some r → s.snapshot = some snap →
      s.queue = e :: rest →
      (finishRun res s).running = some e.jid ∧
      (finishRun res s).runningOpts = some e.opts) := by
  refine ⟨?_, ?_, ?_⟩
  · intro s hs
    exact (reachable_inv hs).2.2.1
  · intro s j oA oB r hs hr
    rw [runJobReq_busy j oA r hr,
      runJobReq_busy j oB r ((enqueueReq_running j oA s).trans hr)]
    exact enqueue_twice_opts j oA oB (reachable_inv hs).2.2.1
  · intro s res r snap e rest hr hsn hq
    exact finishRun_starts_head res r snap e rest hr hsn hq

/-- C5: `CurrentStatus()` returns the running job id (none when idle) and
the queued job ids in queue order, and in every reachable state that queue
is sorted by arrival, oldest-submitted first. -/
theorem currentStatus_fifo (s : OState) (h : Reachable s) :
    (currentStatus s).runningJobID = s.running ∧
    (currentStatus s).queuedJobIDs = s.queue.map QEntry.jid ∧
    s.queue.Pairwise (fun a b => a.arrival < b.arrival) :=
  ⟨rfl, rfl, (reachable_inv h).2.2.2.1⟩

/-- C6: the status domain is exactly the eight listed values and the
workflow-step domain exactly the nine listed values, in the order the
frontend mappings declare them, and every enum value is handled by
`StatusBadge`'s `config` and `WorkflowBadge`'s `stepLabels`. -/
theorem status_step_domains :
    statusBadgeConfig.map Prod.fst =
      ["pending", "processing", "needs_input", "completed", "failed", "aborted",
        "done", "rejected"] ∧
    stepLabels.map Prod.fst =
      ["company_extraction", "search_connections", "needs_hebrew_names",
        "message_connections", "waiting_for_reply", "search_linkedin",
        "send_requests", "waiting_for_accept", "done"] ∧
    (∀ st : Status, (statusBadgeConfig.lookup st.key).isSome = true) ∧
    (∀ ws : WStep, (stepLabels.lookup ws.key).isSome = true) := by
  refine ⟨rfl, rfl, ?_, ?_⟩
  · intro st
    cases st <;> rfl
  · intro ws
    cases ws <;> rfl

/-- C7: a job with `status = needs_input` is shown the Hebrew-name
translation prompt when `workflow_step = needs_hebrew_names` and the
company-name prompt for every other workflow step. -/
theorem needs_input_prompt (status wstep : String) (h : status = "needs_input") :
    companyCellView status wstep =
      (if wstep = "needs_hebrew_names" then CompanyCell.hebrewNamesButton
        else CompanyCell.enterCompanyButton) := by
  subst h
  unfold companyCellView
  by_cases hw : wstep = "needs_hebrew_names" <;> simp [hw]

/-- C8: process-crash recovery — startup reconciliation turns every
`processing` record into `failed` with message `"interrupted"`, leaves all
other records untouched, and the post-startup state (the state from which
any `RunJob` is accepted) carries the reconciled store with an idle slot. -/
theorem crash_recovery (st : Nat → JobRec) (j : Nat) :
    ¬(startupRecover st j).status = Status.processing ∧
    ((st j).status = Status.processing →
      startupRecover st j
        = { st j with status := Status.failed, error_message := some "interrupted" }) ∧
    (¬(st j).status = Status.processing → startupRecover st j = st j) ∧
    (initState st).store j = startupRecover st j ∧
    (initState st).running = none ∧
    (initState st).queue = [] := by
  refine ⟨startupRecover_not_processing st j, ?_, ?_, rfl, rfl, rfl⟩
  · intro h
    unfold startupRecover
    rw [if_pos h]
  · intro h
    unfold startupRecover
    rw [if_neg h]

/-- C9: FIFO start order — Run All issues its requests sequentially over
the reversed (oldest-first) list, so a newest-first jobs list yields an
oldest-first request order; in every reachable Orchestrator state the wait
queue is sorted by arrival; and the job started when a run finishes is the
queue head, which arrived before every other queued job. -/
theorem fifo_start_order :
    (∀ runnableJobs : List JobRow,
      runnableJobs.Pairwise (fun a b => b.created_at ≤ a.created_at) →
      (runAllFifoJobs runnableJobs).Pairwise (fun a b => a.created_at ≤ b.created_at)) ∧
    (∀ s, Reachable s → s.queue.Pairwise (fun a b => a.arrival < b.arrival)) ∧
    (∀ s res r snap e rest, Reachable s → s.running = some r →
      s.snapshot = some snap → s.queue = e :: rest →
      (finishRun res s).running = some e.jid ∧
      ∀ e₂ ∈ rest, e.arrival < e₂.arrival) := by
  refine ⟨?_, ?_, ?_⟩
  · intro jobs hjobs
    exact List.pairwise_reverse.mpr hjobs
  · intro s h
    exact (reachable_inv h).2.2.2.1
  · intro s res r snap e rest h hr hsn hq
    refine ⟨(finishRun_starts_head res r snap e rest hr hsn hq).1, ?_⟩
    have hpw := (reachable_inv h).2.2.2.1
    rw [hq] at hpw
    exact (List.pairwise_cons.mp hpw).1

/-- C10: the Hebrew-names form submits only when every pending name has a
non-blank translation, and a submission then sends exactly the pairs
`(english_name, trimmed hebrew_name)`, one per pending name, each with a
non-blank trimmed translation. -/
theorem hebrew_names_submission (pendingNames : List String) (t : String → String)
    (isPending : Bool) :
    (submitEnabled isPending pendingNames t = true → allFilled pendingNames t = true) ∧
    (pendingNames.Nodup → allFilled pendingNames t = true →
      handleSubmitNames (translationsEntries pendingNames t)
        = pendingNames.map (fun n => (n, jsTrim (t n))) ∧
      ∀ n ∈ pendingNames,
        (n, jsTrim (t n)) ∈ handleSubmitNames (translationsEntries pendingNames t) ∧
        ¬jsTrim (t n) = "") := by
  constructor
  · intro h
    simp only [submitEnabled, Bool.and_eq_true] at h
    exact h.2
  · intro hnd hall
    have hallmem : ∀ n ∈ pendingNames, ¬jsTrim (t n) = "" := by
      intro n hn
      simpa using List.all_eq_true.mp hall n hn
    have heq : handleSubmitNames (translationsEntries pendingNames t)
        = pendingNames.map (fun n => (n, jsTrim (t n))) := by
      unfold handleSubmitNames translationsEntries
      rw [List.dedup_eq_self.mpr hnd]
      have hfil : (pendingNames.map (fun n => (n, t n))).filter
          (fun p => ¬jsTrim p.2 = "") = pendingNames.map (fun n => (n, t n)) := by
        refine List.filter_eq_self.mpr ?_
        intro p hp
        obtain ⟨n, hn, rfl⟩ := List.mem_map.mp hp
        exact decide_eq_true (hallmem n hn)
      rw [hfil, List.map_map]
      rfl
    refine ⟨heq, ?_⟩
    intro n hn
    refine ⟨?_, hallmem n hn⟩
    rw [heq]
    exact List.mem_map_of_mem _ hn

/-! ## Concrete witness states -/

/-- Sample trigger options. -/
def sampleOpts : TriggerOpts := ⟨some 1, true, false⟩

/-- A second, different set of trigger options. -/
def sampleOptsB : TriggerOpts := ⟨some 2, false, true⟩

/-- A store of fresh jobs. -/
def sampleStore : Nat → JobRec :=
  fun _ => ⟨Status.pending, WStep.company_extraction, none⟩

/-- A store of jobs awaiting replies. -/
def waitingStore : Nat → JobRec :=
  fun _ => ⟨Status.completed, WStep.waiting_for_reply, none⟩

/-- A store left with jobs stuck in `processing` by a crash. -/
def crashedStore : Nat → JobRec :=
  fun _ => ⟨Status.processing, WStep.search_connections, none⟩

/-- The state after `RunJob(1)` then `RunJob(2)` on a fresh process:
job 1 runs, job 2 waits in the queue. -/
def wState1 : OState :=
  runTrace [OEvent.runReq 1 sampleOpts, OEvent.runReq 2 sampleOpts] (initState sampleStore)

/-- A newer and an older jobs-table row. -/
def rowA : JobRow := ⟨10, 100⟩

/-- The older row. -/
def rowB : JobRow := ⟨11, 50⟩

/-! ## Witnesses -/

/-- Witness for C1 at the two-request trace. -/
theorem single_flight_execution_witness :
    Reachable wState1 ∧ wState1.running = some 1 ∧
    (∀ j k, (wState1.store j).status = Status.processing →
      (wState1.store k).status = Status.processing → j = k) := by
  have hre : Reachable wState1 :=
    ⟨sampleStore, [OEvent.runReq 1 sampleOpts, OEvent.runReq 2 sampleOpts], rfl⟩
  exact ⟨hre, rfl, (single_flight_execution wState1 hre).2⟩

/-- Witness for C2: aborting the running job 1 and the queued job 2. -/
theorem abortJob_semantics_witness :
    (abortJob 1 wState1 = abortCurrent wState1) ∧
    ((abortJob 2 wState1).store = wState1.store ∧
      ∀ e ∈ (abortJob 2 wState1).queue, ¬e.jid = 2) := by
  have h1 : wState1.running = some 1 := rfl
  have h2 : ¬wState1.running = some 2 := by
    rw [h1]
    simp
  have ha := (abortJob_semantics wState1 1).1 h1
  have hb := (abortJob_semantics wState1 2).2 h2
  exact ⟨ha, hb.1, hb.2.2.2.2⟩

/-- Witness for C3: a `completed / waiting_for_reply` job run and aborted
mid-gateway-call ends exactly as it started, plus the abort message. -/
theorem abort_restores_snapshot_witness :
    ((runThenAbort 7 sampleOpts (initState waitingStore)).store 7).status
      = Status.completed ∧
    ((runThenAbort 7 sampleOpts (initState waitingStore)).store 7).wstep
      = WStep.waiting_for_reply ∧
    ((runThenAbort 7 sampleOpts (initState waitingStore)).store 7).error_message
      = some "Aborted by user" := by
  have h := abort_restores_snapshot (initState waitingStore) 7 sampleOpts rfl rfl
  refine ⟨?_, ?_, ?_⟩
  · rw [h.1]
    rfl
  · rw [h.1]
    rfl
  · rw [h.1]

/-- Witness for C4: requesting job 3 twice while job 1 runs leaves one
queue entry for 3, carrying the later options. -/
theorem queue_dedup_replace_witness :
    Reachable wState1 ∧
    ((runJobReq 3 sampleOptsB (runJobReq 3 sampleOpts wState1)).queue.filter
      (fun e => e.jid = 3)).map QEntry.opts = [sampleOptsB] := by
  have hre : Reachable wState1 :=
    ⟨sampleStore, [OEvent.runReq 1 sampleOpts, OEvent.runReq 2 sampleOpts], rfl⟩
  exact ⟨hre, queue_dedup_replace.2.1 wState1 3 sampleOpts sampleOptsB 1 hre rfl⟩

/-- Witness for C5 at the two-request trace. -/
theorem currentStatus_fifo_witness :
    Reachable wState1 ∧ (currentStatus wState1).runningJobID = some 1 ∧
    (currentStatus wState1).queuedJobIDs = [2] := by
  have hre : Reachable wState1 :=
    ⟨sampleStore, [OEvent.runReq 1 sampleOpts, OEvent.runReq 2 sampleOpts], rfl⟩
  have h := currentStatus_fifo wState1 hre
  exact ⟨hre, h.1.trans (by rfl), h.2.1.trans (by rfl)⟩

/-- Witness for C7 at both needs-input workflow steps. -/
theorem needs_input_prompt_witness :
    companyCellView "needs_input" "company_extraction" = CompanyCell.enterCompanyButton ∧
    companyCellView "needs_input" "needs_hebrew_names" = CompanyCell.hebrewNamesButton := by
  constructor
  · exact (needs_input_prompt "needs_input" "company_extraction" rfl).trans (by decide)
  · exact (needs_input_prompt "needs_input" "needs_hebrew_names" rfl).trans (by decide)

/-- Witness for C8 at a store whose every record is stuck `processing`. -/
theorem crash_recovery_witness :
    (crashedStore 0).status = Status.processing ∧
    startupRecover crashedStore 0
      = { crashedStore 0 with status := Status.failed, error_message := some "interrupted" } ∧
    ¬(startupRecover crashedStore 0).status = Status.processing := by
  have h := crash_recovery crashedStore 0
  exact ⟨rfl, h.2.1 rfl, h.1⟩

/-- Witness for C9: a newest-first pair of rows reversed to oldest-first,
and the queued job 2 started when job 1 finishes. -/
theorem fifo_start_order_witness :
    (runAllFifoJobs [rowA, rowB]).Pairwise (fun a b => a.created_at ≤ b.created_at) ∧
    Reachable wState1 ∧
    (finishRun (GResult.success WStep.search_connections) wState1).running = some 2 := by
  have hsorted : [rowA, rowB].Pairwise (fun a b => b.created_at ≤ a.created_at) := by
    decide
  have hre : Reachable wState1 :=
    ⟨sampleStore, [OEvent.runReq 1 sampleOpts, OEvent.runReq 2 sampleOpts], rfl⟩
  have h := fifo_start_order.2.2 wState1 (GResult.success WStep.search_connections) 1
    ⟨Status.pending, WStep.company_extraction, none⟩ ⟨2, sampleOpts, 0⟩ [] hre rfl rfl rfl
  exact ⟨fifo_start_order.1 [rowA, rowB] hsorted, hre, h.1⟩

/-- Witness for C10 at two pending names, both filled in. -/
theorem hebrew_names_submission_witness :
    (["David", "Sarah"] : List String).Nodup ∧
    allFilled ["David", "Sarah"] (fun _ => " d ") = true ∧
    handleSubmitNames (translationsEntries ["David", "Sarah"] (fun _ => " d "))
      = [("David", "d"), ("Sarah", "d")] := by
  have hnd : (["David", "Sarah"] : List String).Nodup := by decide
  have hall : allFilled ["David", "Sarah"] (fun _ => " d ") = true := by decide
  have h := (hebrew_names_submission ["David", "Sarah"] (fun _ => " d ") false).2 hnd hall
  refine ⟨hnd, hall, ?_⟩
  rw [h.1]
  rfl
